import Mathlib

/-!
A shallow embedding of the MathJax preprocessor's scanner and replacer
(`src/preprocess/mathjax.rs`).

Text is modelled as `List Char` (the regex engine works on characters;
all delimiter characters are ASCII, so character indices coincide with
the byte indices used by the Rust code on the inputs of interest).

The scanner in the source is a single Rust regex

  `($$)((?:[^$]|\$)+)($$) | ($)((?:[^$]|\$)+)($) | (\\\()(.+?)(\\\)) | (\\\[)(.+?)(\\\])`

(written with insignificant-whitespace mode in the source) evaluated with
the regex crate's leftmost-first match semantics: the match starting at
the earliest position wins; at a given start position alternatives are
tried in order, greedy repetitions prefer one more iteration and lazy
repetitions prefer stopping, and the first complete path in that
preference order is the match.  Each alternative below is translated
into a fueled recursive function that explores exactly that preference
order (`orOpt` takes the first success).  `.` in the regex crate matches
any character except a newline; `[^$]` matches any character except `$`,
newlines included.
-/

namespace MathJaxSpec

/-- First-success choice, mirroring the preference order of backtracking
alternation (and Rust's `Option::or`). -/
def orOpt {α : Type} : Option α → Option α → Option α
  | some a, _ => some a
  | none, b => b

/-- `[^$]` at position `p`: a character exists there and is not a dollar sign. -/
abbrev nonDollarAt (s : List Char) (p : Nat) : Prop :=
  p < s.length ∧ s[p]? ≠ some '$'

/-- `\$` (an escaped dollar sign) at position `p`. -/
abbrev escapedDollarAt (s : List Char) (p : Nat) : Prop :=
  s[p]? = some '\\' ∧ s[p + 1]? = some '$'

/-- `$$` at position `p`. -/
abbrev twoDollarAt (s : List Char) (p : Nat) : Prop :=
  s[p]? = some '$' ∧ s[p + 1]? = some '$'

/-- A single `$` at position `p`. -/
abbrev dollarAt (s : List Char) (p : Nat) : Prop :=
  s[p]? = some '$'

/-- `.` at position `p`: any character other than a newline. -/
abbrev dotAt (s : List Char) (p : Nat) : Prop :=
  p < s.length ∧ s[p]? ≠ some '\n'

/-- The three-character legacy token `\\c` (two backslashes then `c`) at `p`. -/
abbrev tokenAt (s : List Char) (p : Nat) (c : Char) : Prop :=
  s[p]? = some '\\' ∧ s[p + 1]? = some '\\' ∧ s[p + 2]? = some c

/-- Backtracking continuation for the Block alternative: matches
`(?:[^$]|\$)*\$\$` at `p` in preference order — one more greedy
iteration via `[^$]`, else via `\$`, else close with `$$`.  Returns the
end position one past the closing delimiter. -/
def blockCont : Nat → List Char → Nat → Option Nat
  | 0, _, _ => none
  | fuel + 1, s, p =>
    orOpt (if nonDollarAt s p then blockCont fuel s (p + 1) else none)
      (orOpt (if escapedDollarAt s p then blockCont fuel s (p + 2) else none)
        (if twoDollarAt s p then some (p + 2) else none))

/-- Backtracking continuation for the Inline alternative: matches
`(?:[^$]|\$)*\$` at `p` in preference order. -/
def inlineCont : Nat → List Char → Nat → Option Nat
  | 0, _, _ => none
  | fuel + 1, s, p =>
    orOpt (if nonDollarAt s p then inlineCont fuel s (p + 1) else none)
      (orOpt (if escapedDollarAt s p then inlineCont fuel s (p + 2) else none)
        (if dollarAt s p then some (p + 1) else none))

/-- Backtracking continuation for a legacy alternative: matches
`.*?\\c` at `p` — lazily, so the closing token is preferred over one
more content character. -/
def legacyCont (close : Char) : Nat → List Char → Nat → Option Nat
  | 0, _, _ => none
  | fuel + 1, s, p =>
    orOpt (if tokenAt s p close then some (p + 3) else none)
      (if dotAt s p then legacyCont close fuel s (p + 1) else none)

/-- `(?:[^$]|\$)+\$\$` at `p`: the mandatory first repetition of the Block
content, then `blockCont`. -/
def blockBody (fuel : Nat) (s : List Char) (p : Nat) : Option Nat :=
  orOpt (if nonDollarAt s p then blockCont fuel s (p + 1) else none)
    (if escapedDollarAt s p then blockCont fuel s (p + 2) else none)

/-- `(?:[^$]|\$)+\$` at `p`: the mandatory first repetition of the Inline
content, then `inlineCont`. -/
def inlineBody (fuel : Nat) (s : List Char) (p : Nat) : Option Nat :=
  orOpt (if nonDollarAt s p then inlineCont fuel s (p + 1) else none)
    (if escapedDollarAt s p then inlineCont fuel s (p + 2) else none)

/-- `.+?\\c` at `p`: the mandatory first content character of a legacy
alternative, then `legacyCont`. -/
def legacyBody (close : Char) (fuel : Nat) (s : List Char) (p : Nat) : Option Nat :=
  if dotAt s p then legacyCont close fuel s (p + 1) else none

/-- The four delimiter conventions (`Kind` in the source). -/
inductive Kind : Type
  | Inline : Kind
  | Block : Kind
  | LegacyInline : Kind
  | LegacyBlock : Kind
deriving DecidableEq, Repr

/-- Anchored match of the whole alternation at position `i`, alternatives
in the source's order: Block, Inline, LegacyInline, LegacyBlock.  Returns
the end position of the match and which alternative matched. -/
def matchAt (fuel : Nat) (s : List Char) (i : Nat) : Option (Nat × Kind) :=
  orOpt ((if twoDollarAt s i then blockBody fuel s (i + 2) else none).map
      (fun e => (e, Kind.Block)))
    (orOpt ((if dollarAt s i then inlineBody fuel s (i + 1) else none).map
        (fun e => (e, Kind.Inline)))
      (orOpt ((if tokenAt s i '(' then legacyBody ')' fuel s (i + 3) else none).map
          (fun e => (e, Kind.LegacyInline)))
        ((if tokenAt s i '[' then legacyBody ']' fuel s (i + 3) else none).map
          (fun e => (e, Kind.LegacyBlock)))))

/-- The capture groups of the regex that the source reads: group 0 (the
whole match, as its start and end offsets) and the opening-delimiter
groups 1 (`$$`), 3 (`$`), 5 (`\\(`) and 7 (`\\[`). -/
structure Captures : Type where
  g0 : Option (Nat × Nat)
  g1 : Option (List Char)
  g3 : Option (List Char)
  g5 : Option (List Char)
  g7 : Option (List Char)
deriving DecidableEq, Repr

/-- The captures produced by a whole-regex match `[i, e)` via the
alternative `k`: in a match of one alternative the other alternatives'
groups are unset, and the opening-delimiter group holds the matched
opening token's text. -/
def capturesOf (i e : Nat) (k : Kind) : Captures :=
  match k with
  | Kind.Block => ⟨some (i, e), some ['$', '$'], none, none, none⟩
  | Kind.Inline => ⟨some (i, e), none, some ['$'], none, none⟩
  | Kind.LegacyInline => ⟨some (i, e), none, none, some ['\\', '\\', '('], none⟩
  | Kind.LegacyBlock => ⟨some (i, e), none, none, none, some ['\\', '\\', '[']⟩

/-- Leftmost regex search starting at position `i`: the engine reports the
match starting at the earliest position `j ≥ i` at which some alternative
matches.  This is the successive-match search performed by
`captures_iter`. -/
def regexSearchFrom : Nat → List Char → Nat → Option Captures
  | 0, _, _ => none
  | fuel + 1, s, i =>
    if s.length < i then none
    else
      match matchAt (s.length + 1) s i with
      | some (e, k) => some (capturesOf i e k)
      | none => regexSearchFrom fuel s (i + 1)

/-- `&l[a..b]` on character lists. -/
def sliceList (l : List Char) (a b : Nat) : List Char :=
  (l.take b).drop a

/-- `strip_delimiters_from_delimited_text`: strips the opening and closing
delimiters from the delimited text by fixed length — 2 for `$$`, 1 for
`$`, 3 for each legacy token. -/
def strip_delimiters_from_delimited_text (kind : Kind) (delimited_text : List Char) :
    List Char :=
  match kind with
  | Kind.Block => sliceList delimited_text 2 (delimited_text.length - 2)
  | Kind.Inline => sliceList delimited_text 1 (delimited_text.length - 1)
  | Kind.LegacyBlock => sliceList delimited_text 3 (delimited_text.length - 3)
  | Kind.LegacyInline => sliceList delimited_text 3 (delimited_text.length - 3)

/-- The `Mathematics` record of the source: a matched span. -/
structure Mathematics : Type where
  start_index : Nat
  end_index : Nat
  kind : Kind
  text : List Char
deriving DecidableEq, Repr

/-- The `match delimiter.as_str()` arm of `Mathematics::from_capture`. -/
def kindOfDelimiter (delimiter : List Char) : Kind :=
  if delimiter = ['$', '$'] then Kind.Block
  else if delimiter = ['$'] then Kind.Inline
  else if delimiter = ['\\', '\\', '['] then Kind.LegacyBlock
  else Kind.LegacyInline

/-- `Mathematics::from_capture`: reads the opening-delimiter groups
1/3/5/7 (the `.expect` panic on a missing opening delimiter is modelled
as `none`), maps the delimiter text to a `Kind`, and builds the span from
group 0's offsets, stripping the delimiters from the matched text. -/
def Mathematics.from_capture (s : List Char) (captures : Captures) :
    Option Mathematics :=
  match orOpt captures.g1 (orOpt captures.g3 (orOpt captures.g5 captures.g7)) with
  | none => none
  | some delimiter =>
    let kind := kindOfDelimiter delimiter
    captures.g0.map (fun m =>
      { start_index := m.1
        end_index := m.2
        kind := kind
        text := strip_delimiters_from_delimited_text kind (sliceList s m.1 m.2) })

/-- The loop of `MathematicsIterator::next` driven to a list: repeatedly
search for the next regex match (starting at the end of the previous
match), keep the spans `from_capture` accepts and skip the matches it
rejects.  Every match consumes at least one character, so `s.length + 1`
units of fuel are enough for the whole text. -/
def find_from : Nat → List Char → Nat → List Mathematics
  | 0, _, _ => []
  | fuel + 1, s, i =>
    match regexSearchFrom (s.length + 1) s i with
    | none => []
    | some c =>
      match Mathematics.from_capture s c with
      | some m => m :: find_from fuel s m.end_index
      | none =>
        find_from fuel s
          (match c.g0 with
           | some g => g.2
           | none => i + 1)

/-- `find_mathematics`: all spans of one scan of `content`, in order. -/
def find_mathematics (content : List Char) : List Mathematics :=
  find_from (content.length + 1) content 0

/-- The fixed delimiter length stripped from each side of a span by
`strip_delimiters_from_delimited_text`. -/
def delimiterWidth : Kind → Nat
  | Kind.Block => 2
  | Kind.Inline => 1
  | Kind.LegacyBlock => 3
  | Kind.LegacyInline => 3

/-- `Mathematics::replacement`: the wrapper markup emitted for a span. -/
def Mathematics.replacement (m : Mathematics) : List Char :=
  match m.kind with
  | Kind.Block | Kind.LegacyBlock =>
    "<div class=\"math\">$$".data ++ m.text ++ "$$</div>".data
  | Kind.Inline | Kind.LegacyInline =>
    "<span class=\"inline math\">$".data ++ m.text ++ "$</span>".data

/-- The loop of `replace_all_mathematics`: for each span append the
untouched text since the previous span's end, then the span's
replacement; after the last span append the tail of the document. -/
def replaceGo (content : List Char) : List Mathematics → Nat → List Char
  | [], previous_end_index => sliceList content previous_end_index content.length
  | m :: ms, previous_end_index =>
    sliceList content previous_end_index m.start_index ++ m.replacement ++
      replaceGo content ms m.end_index

/-- `replace_all_mathematics`: the whole transform of one document. -/
def replace_all_mathematics (content : List Char) : List Char :=
  replaceGo content (find_mathematics content) 0

/-! ### Basic lemmas about the scanner -/

theorem orOpt_eq_some {α : Type} {a b : Option α} {x : α} (h : orOpt a b = some x) :
    a = some x ∨ (a = none ∧ b = some x) := by
  cases a with
  | some y => exact Or.inl (by simpa [orOpt] using h)
  | none => exact Or.inr ⟨rfl, by simpa [orOpt] using h⟩

theorem lt_length_of_getElem?_eq_some {s : List Char} {p : Nat} {c : Char}
    (h : s[p]? = some c) : p < s.length :=
  (List.getElem?_eq_some.mp h).1

/-- A successful `blockCont` ends at least two characters further on (the
closing `$$`) and within the text. -/
theorem blockCont_bounds : ∀ {fuel : Nat} {s : List Char} {p e : Nat},
    blockCont fuel s p = some e → p + 2 ≤ e ∧ e ≤ s.length := by
  intro fuel
  induction fuel with
  | zero => intro s p e h; simp [blockCont] at h
  | succ n ih =>
    intro s p e h
    simp only [blockCont] at h
    rcases orOpt_eq_some h with h1 | ⟨-, h1⟩
    · split at h1
      · have := ih h1; omega
      · exact absurd h1 (by simp)
    rcases orOpt_eq_some h1 with h2 | ⟨-, h2⟩
    · split at h2
      · have := ih h2; omega
      · exact absurd h2 (by simp)
    split at h2
    next htwo =>
      have := lt_length_of_getElem?_eq_some htwo.2
      have he : p + 2 = e := Option.some.inj h2
      omega
    next => exact absurd h2 (by simp)

/-- A successful `inlineCont` ends at least one character further on (the
closing `$`) and within the text. -/
theorem inlineCont_bounds : ∀ {fuel : Nat} {s : List Char} {p e : Nat},
    inlineCont fuel s p = some e → p + 1 ≤ e ∧ e ≤ s.length := by
  intro fuel
  induction fuel with
  | zero => intro s p e h; simp [inlineCont] at h
  | succ n ih =>
    intro s p e h
    simp only [inlineCont] at h
    rcases orOpt_eq_some h with h1 | ⟨-, h1⟩
    · split at h1
      · have := ih h1; omega
      · exact absurd h1 (by simp)
    rcases orOpt_eq_some h1 with h2 | ⟨-, h2⟩
    · split at h2
      · have := ih h2; omega
      · exact absurd h2 (by simp)
    split at h2
    next hd =>
      have := lt_length_of_getElem?_eq_some hd
      have he : p + 1 = e := Option.some.inj h2
      omega
    next => exact absurd h2 (by simp)

/-- A successful `legacyCont` ends at least three characters further on
(the closing legacy token) and within the text. -/
theorem legacyCont_bounds : ∀ {close : Char} {fuel : Nat} {s : List Char} {p e : Nat},
    legacyCont close fuel s p = some e → p + 3 ≤ e ∧ e ≤ s.length := by
  intro close fuel
  induction fuel with
  | zero => intro s p e h; simp [legacyCont] at h
  | succ n ih =>
    intro s p e h
    simp only [legacyCont] at h
    rcases orOpt_eq_some h with h1 | ⟨-, h1⟩
    · split at h1
      next htok =>
        have := lt_length_of_getElem?_eq_some htok.2.2
        have he : p + 3 = e := Option.some.inj h1
        omega
      next => exact absurd h1 (by simp)
    · split at h1
      · have := ih h1; omega
      · exact absurd h1 (by simp)

theorem blockBody_bounds {fuel : Nat} {s : List Char} {p e : Nat}
    (h : blockBody fuel s p = some e) : p + 3 ≤ e ∧ e ≤ s.length := by
  simp only [blockBody] at h
  rcases orOpt_eq_some h with h1 | ⟨-, h1⟩ <;>
    [skip; skip] <;> split at h1 <;>
    first
      | (have hb := blockCont_bounds h1; omega)
      | exact absurd h1 (by simp)

theorem inlineBody_bounds {fuel : Nat} {s : List Char} {p e : Nat}
    (h : inlineBody fuel s p = some e) : p + 2 ≤ e ∧ e ≤ s.length := by
  simp only [inlineBody] at h
  rcases orOpt_eq_some h with h1 | ⟨-, h1⟩ <;>
    [skip; skip] <;> split at h1 <;>
    first
      | (have hb := inlineCont_bounds h1; omega)
      | exact absurd h1 (by simp)

theorem legacyBody_bounds {close : Char} {fuel : Nat} {s : List Char} {p e : Nat}
    (h : legacyBody close fuel s p = some e) : p + 4 ≤ e ∧ e ≤ s.length := by
  simp only [legacyBody] at h
  split at h
  · have := legacyCont_bounds h; omega
  · exact absurd h (by simp)

/-- Any anchored match at `i` ends past both delimiters and at least one
inner character, and within the text. -/
theorem matchAt_bounds {fuel : Nat} {s : List Char} {i : Nat} {r : Nat × Kind}
    (h : matchAt fuel s i = some r) :
    i + 2 * delimiterWidth r.2 + 1 ≤ r.1 ∧ r.1 ≤ s.length := by
  simp only [matchAt] at h
  rcases orOpt_eq_some h with h1 | ⟨-, h1⟩
  · obtain ⟨e, he, rfl⟩ := Option.map_eq_some'.mp h1
    split at he
    · have := blockBody_bounds he
      simp only [delimiterWidth]; omega
    · exact absurd he (by simp)
  rcases orOpt_eq_some h1 with h2 | ⟨-, h2⟩
  · obtain ⟨e, he, rfl⟩ := Option.map_eq_some'.mp h2
    split at he
    · have := inlineBody_bounds he
      simp only [delimiterWidth]; omega
    · exact absurd he (by simp)
  rcases orOpt_eq_some h2 with h3 | ⟨-, h3⟩
  · obtain ⟨e, he, rfl⟩ := Option.map_eq_some'.mp h3
    split at he
    · have := legacyBody_bounds he
      simp only [delimiterWidth]; omega
    · exact absurd he (by simp)
  · obtain ⟨e, he, rfl⟩ := Option.map_eq_some'.mp h3
    split at he
    · have := legacyBody_bounds he
      simp only [delimiterWidth]; omega
    · exact absurd he (by simp)

/-- Whatever `regexSearchFrom` reports is an anchored match at some
position at or after the search start, with the captures of that match. -/
theorem regexSearchFrom_spec : ∀ {fuel : Nat} {s : List Char} {i : Nat} {c : Captures},
    regexSearchFrom fuel s i = some c →
    ∃ j e k, i ≤ j ∧ matchAt (s.length + 1) s j = some (e, k) ∧ c = capturesOf j e k := by
  intro fuel
  induction fuel with
  | zero => intro s i c h; simp [regexSearchFrom] at h
  | succ n ih =>
    intro s i c h
    simp only [regexSearchFrom] at h
    split at h
    · exact absurd h (by simp)
    split at h
    next e k hm => exact ⟨i, e, k, Nat.le_refl i, hm, (Option.some.inj h).symm⟩
    next => obtain ⟨j, e, k, hij, hm, hc⟩ := ih h; exact ⟨j, e, k, by omega, hm, hc⟩

/-- On the captures of an actual match, `from_capture` always succeeds and
builds the span of that match. -/
theorem from_capture_capturesOf (s : List Char) (j e : Nat) (k : Kind) :
    Mathematics.from_capture s (capturesOf j e k) =
      some ⟨j, e, k, strip_delimiters_from_delimited_text k (sliceList s j e)⟩ := by
  cases k <;> rfl

/-- Every span in `find_from fuel s i` comes from an anchored match at its
own start position, at or after `i`, and carries that match's end, kind
and stripped text. -/
theorem find_from_shape : ∀ {fuel : Nat} {s : List Char} {i : Nat} {m : Mathematics},
    m ∈ find_from fuel s i →
    ∃ e k, i ≤ m.start_index ∧
      matchAt (s.length + 1) s m.start_index = some (e, k) ∧
      m.end_index = e ∧ m.kind = k ∧
      m.text = strip_delimiters_from_delimited_text k (sliceList s m.start_index e) := by
  intro fuel
  induction fuel with
  | zero => intro s i m h; simp [find_from] at h
  | succ n ih =>
    intro s i m h
    simp only [find_from] at h
    split at h
    · exact absurd h (by simp)
    next c hsearch =>
      obtain ⟨j, e, k, hij, hm, rfl⟩ := regexSearchFrom_spec hsearch
      rw [from_capture_capturesOf] at h
      rcases List.mem_cons.mp h with rfl | htail
      · exact ⟨e, k, hij, hm, rfl, rfl, rfl⟩
      · have htail' : m ∈ find_from n s e := htail
        obtain ⟨e', k', hle, hm', h1, h2, h3⟩ := ih htail'
        have := matchAt_bounds hm
        have hwidth : 0 ≤ 2 * delimiterWidth (e, k).2 := Nat.zero_le _
        exact ⟨e', k', by omega, hm', h1, h2, h3⟩

/-- The spans of one scan are ordered: each span ends no later than the
next one starts. -/
theorem find_from_chain : ∀ {fuel : Nat} {s : List Char} {i : Nat},
    List.Chain' (fun a b => a.end_index ≤ b.start_index) (find_from fuel s i) := by
  intro fuel
  induction fuel with
  | zero => intro s i; simp [find_from]
  | succ n ih =>
    intro s i
    simp only [find_from]
    split
    · exact List.chain'_nil
    next c hsearch =>
      obtain ⟨j, e, k, hij, hm, rfl⟩ := regexSearchFrom_spec hsearch
      rw [from_capture_capturesOf]
      refine List.chain'_cons'.mpr ⟨?_, ih⟩
      intro y hy
      obtain ⟨e', k', hle, -, -, -, -⟩ := find_from_shape (List.mem_of_mem_head? hy)
      exact hle

/-! ### The claims -/

/-- Claim C1: wherever the two-character sequence `$$` begins a matchable
span, the scanner matches it as a single Block span and never as two
adjacent Inline matches — with `$$` at the start position no alternative
other than Block can match there at all; and scanning
"Euler's identity: $$e^{i\pi} + 1 = 0$$" yields exactly one span, of
convention Block, with inner text "e^{i\pi} + 1 = 0". -/
theorem block_preferred_over_inline :
    (∀ (fuel : Nat) (s : List Char) (i : Nat) (r : Nat × Kind),
        matchAt fuel s i = some r → twoDollarAt s i → r.2 = Kind.Block) ∧
      find_mathematics "Euler's identity: $$e^\x7bi\\pi\x7d + 1 = 0$$".data =
        [⟨18, 38, Kind.Block, "e^\x7bi\\pi\x7d + 1 = 0".data⟩] := by
  constructor
  · intro fuel s i r h htwo
    have hib : inlineBody fuel s (i + 1) = none := by
      have h1 : ¬ nonDollarAt s (i + 1) := fun hc => hc.2 htwo.2
      have h2 : ¬ escapedDollarAt s (i + 1) := fun hc =>
        absurd (htwo.2.symm.trans hc.1) (by decide)
      simp [inlineBody, h1, h2, orOpt]
    have hp : ¬ tokenAt s i '(' := fun hc =>
      absurd (htwo.1.symm.trans hc.1) (by decide)
    have hb : ¬ tokenAt s i '[' := fun hc =>
      absurd (htwo.1.symm.trans hc.1) (by decide)
    simp only [matchAt, if_pos htwo.1, hib, if_neg hp, if_neg hb, Option.map_none'] at h
    rcases orOpt_eq_some h with h1 | ⟨-, h1⟩
    · obtain ⟨e, -, rfl⟩ := Option.map_eq_some'.mp h1
      rfl
    · simp [orOpt] at h1
  · decide

theorem block_preferred_over_inline_witness :
    matchAt 39 "Euler's identity: $$e^\x7bi\\pi\x7d + 1 = 0$$".data 18 =
        some (38, Kind.Block) ∧
      twoDollarAt "Euler's identity: $$e^\x7bi\\pi\x7d + 1 = 0$$".data 18 ∧
      ((38 : Nat), Kind.Block).2 = Kind.Block :=
  ⟨by decide, by decide,
    block_preferred_over_inline.1 39
      "Euler's identity: $$e^\x7bi\\pi\x7d + 1 = 0$$".data 18 (38, Kind.Block)
      (by decide) (by decide)⟩

/-- Claim C2: if the scanner finds no span in the input, the transform
returns the input unchanged. -/
theorem transform_identity_on_no_match (content : List Char)
    (h : find_mathematics content = []) :
    replace_all_mathematics content = content := by
  unfold replace_all_mathematics
  rw [h]
  simp [replaceGo, sliceList, List.take_length]

theorem transform_identity_on_no_match_witness :
    (find_mathematics "Text without mathematics".data = [] ∧
        replace_all_mathematics "Text without mathematics".data =
          "Text without mathematics".data) ∧
      find_mathematics "".data = [] ∧
      replace_all_mathematics "".data = "".data :=
  ⟨⟨by decide, transform_identity_on_no_match _ (by decide)⟩,
    by decide, transform_identity_on_no_match _ (by decide)⟩

/-- Claim C3: a span's replacement depends only on its convention and its
inner text; Block and LegacyBlock spans get the block wrapper around
`$$ text $$`, Inline and LegacyInline spans the inline wrapper around
`$ text $`; and the transform of
"Pythagorean theorem: $a^{2} + b^{2} = c^{2}$" is exactly
"Pythagorean theorem: <span class=\"inline math\">$a^{2} + b^{2} = c^{2}$</span>". -/
theorem replacement_by_kind_and_text :
    (∀ m₁ m₂ : Mathematics, m₁.kind = m₂.kind → m₁.text = m₂.text →
        m₁.replacement = m₂.replacement) ∧
      (∀ m : Mathematics, (m.kind = Kind.Block ∨ m.kind = Kind.LegacyBlock) →
        m.replacement = "<div class=\"math\">$$".data ++ m.text ++ "$$</div>".data) ∧
      (∀ m : Mathematics, (m.kind = Kind.Inline ∨ m.kind = Kind.LegacyInline) →
        m.replacement =
          "<span class=\"inline math\">$".data ++ m.text ++ "$</span>".data) ∧
      replace_all_mathematics
          "Pythagorean theorem: $a^\x7b2\x7d + b^\x7b2\x7d = c^\x7b2\x7d$".data =
        ("Pythagorean theorem: " ++
          "<span class=\"inline math\">$a^\x7b2\x7d + b^\x7b2\x7d = c^\x7b2\x7d$</span>").data := by
  refine ⟨?_, ?_, ?_, by decide⟩
  · intro m₁ m₂ h1 h2
    unfold Mathematics.replacement
    rw [h1, h2]
  · intro m h
    rcases h with h | h <;> simp [Mathematics.replacement, h]
  · intro m h
    rcases h with h | h <;> simp [Mathematics.replacement, h]

theorem replacement_by_kind_and_text_witness :
    (Kind.Inline = Kind.Inline ∨ Kind.Inline = Kind.LegacyInline) ∧
      (⟨0, 3, Kind.Inline, ['x']⟩ : Mathematics).replacement =
        "<span class=\"inline math\">$".data ++ ['x'] ++ "$</span>".data :=
  ⟨Or.inl rfl,
    replacement_by_kind_and_text.2.2.1 ⟨0, 3, Kind.Inline, ['x']⟩ (Or.inl rfl)⟩

/-- Claim C4 evaluated on the code: on the input `$a\$b$` the scanner does
NOT produce a span with inner text `a\$b`.  Under the regex engine's
leftmost-first semantics the `[^$]` branch consumes the backslash and the
following `$` then closes the Inline span, so the escaped dollar sign
terminates the span: the single span is `$a\$` (offsets 0..4) with inner
text `a\`, and the transform wraps `a\` and leaves `b$` outside. -/
theorem escaped_dollar_terminates_inline :
    find_mathematics "$a\\$b$".data = [⟨0, 4, Kind.Inline, ['a', '\\']⟩] ∧
      replace_all_mathematics "$a\\$b$".data =
        "<span class=\"inline math\">$a\\$</span>b$".data := by
  constructor <;> decide

/-- Claim C5, counterexample: a LegacyInline span whose content includes a
newline does not match — the legacy content rule `.` excludes newlines —
so `\\(a\n b\\)` yields zero spans, contradicting the claim that it
matches. -/
theorem legacy_newline_never_matches :
    find_mathematics "\\\\(a\n b\\\\)".data = [] := by decide

/-- Claim C5 as amended: Block and Inline spans may contain newline
characters (`[^$]` does not exclude them), so
"Mathematics $a +\n b$ over multiple lines" yields exactly one Inline
span with inner text "a +\n b"; but legacy content is matched by `.`,
which excludes newlines, so LegacyInline and LegacyBlock spans whose
content includes a newline do not match. -/
theorem newline_in_spans :
    find_mathematics "Mathematics $a +\n b$ over multiple lines".data =
        [⟨12, 20, Kind.Inline, "a +\n b".data⟩] ∧
      find_mathematics "\\\\(a\nb\\\\)".data = [] ∧
      find_mathematics "\\\\[a\nb\\\\]".data = [] :=
  ⟨by decide, by decide, by decide⟩

/-- Claim C6: the spans of one scan are strictly ordered by start offset
and non-overlapping — each span ends no later than the next begins, and
every span starts strictly before it ends. -/
theorem spans_ordered_nonoverlapping (content : List Char) :
    List.Chain' (fun a b => a.end_index ≤ b.start_index)
        (find_mathematics content) ∧
      ∀ m ∈ find_mathematics content, m.start_index < m.end_index := by
  refine ⟨find_from_chain, ?_⟩
  intro m hm
  obtain ⟨e, k, -, hmatch, he, -, -⟩ := find_from_shape hm
  have hb := matchAt_bounds hmatch
  dsimp only at hb
  rw [he]
  omega

theorem spans_ordered_nonoverlapping_witness :
    (⟨0, 3, Kind.Inline, ['x']⟩ : Mathematics) ∈ find_mathematics "$x$".data ∧
      (⟨0, 3, Kind.Inline, ['x']⟩ : Mathematics).start_index <
        (⟨0, 3, Kind.Inline, ['x']⟩ : Mathematics).end_index :=
  ⟨by decide,
    (spans_ordered_nonoverlapping "$x$".data).2 ⟨0, 3, Kind.Inline, ['x']⟩
      (by decide)⟩

/-- Claim C7: unmatched or mismatched delimiters are not errors and
produce no span, and the text passes through the transform unchanged; in
particular `$$Text with a non matching delimiters mathematics\]` yields
zero spans and is returned verbatim. -/
theorem mismatched_delimiters_pass_through :
    find_mathematics
        "$$Text with a non matching delimiters mathematics\\]".data = [] ∧
      replace_all_mathematics
          "$$Text with a non matching delimiters mathematics\\]".data =
        "$$Text with a non matching delimiters mathematics\\]".data := by
  constructor <;> decide

/-- Claim C8: every span the transform slices with lies inside the text,
and the fixed-length delimiter stripping (2 for `$$`, 1 for `$`, 3 for a
legacy token) always has at least one character left over, so no slice is
ever out of bounds. -/
theorem slicing_in_bounds (content : List Char) (m : Mathematics)
    (h : m ∈ find_mathematics content) :
    m.start_index + 2 * delimiterWidth m.kind < m.end_index ∧
      m.end_index ≤ content.length ∧
      2 * delimiterWidth m.kind <
        (sliceList content m.start_index m.end_index).length := by
  obtain ⟨e, k, -, hmatch, he, hk, -⟩ := find_from_shape h
  have hb := matchAt_bounds hmatch
  dsimp only at hb
  rw [he, hk]
  have hlen : (sliceList content m.start_index e).length = e - m.start_index := by
    simp only [sliceList, List.length_drop, List.length_take]
    omega
  rw [hlen]
  omega

theorem slicing_in_bounds_witness :
    (⟨0, 3, Kind.Inline, ['x']⟩ : Mathematics) ∈ find_mathematics "$x$".data ∧
      (0 : Nat) + 2 * delimiterWidth Kind.Inline < 3 :=
  ⟨by decide,
    (slicing_in_bounds "$x$".data ⟨0, 3, Kind.Inline, ['x']⟩ (by decide)).1⟩

/-- Claim C9: every span has non-empty inner text (the `+` quantifier of
the matching rule requires at least one inner character); in particular
`$$$$` yields no span and passes through the transform unchanged. -/
theorem inner_text_nonempty :
    (∀ (content : List Char) (m : Mathematics),
        m ∈ find_mathematics content → m.text ≠ []) ∧
      find_mathematics "$$$$".data = [] ∧
      replace_all_mathematics "$$$$".data = "$$$$".data := by
  refine ⟨?_, by decide, by decide⟩
  intro content m hm
  obtain ⟨e, k, -, hmatch, -, -, htext⟩ := find_from_shape hm
  have hb := matchAt_bounds hmatch
  dsimp only at hb
  have hpos : 0 < m.text.length := by
    rw [htext]
    cases k <;>
      simp only [strip_delimiters_from_delimited_text, sliceList, List.length_drop,
        List.length_take, delimiterWidth] at hb ⊢ <;>
      omega
  exact List.length_pos.mp hpos

theorem inner_text_nonempty_witness :
    (⟨0, 3, Kind.Inline, ['x']⟩ : Mathematics) ∈ find_mathematics "$x$".data ∧
      (⟨0, 3, Kind.Inline, ['x']⟩ : Mathematics).text ≠ [] :=
  ⟨by decide,
    inner_text_nonempty.1 "$x$".data ⟨0, 3, Kind.Inline, ['x']⟩ (by decide)⟩

/-- Claim C10: for every match the regex search reports, one of the
opening-delimiter capture groups (1, 3, 5 or 7) is present and group 0 is
present, so `Mathematics::from_capture` always returns a span — the
`.expect` never panics and the iterator's filtering loop never discards a
regex match. -/
theorem from_capture_never_fails (fuel : Nat) (s : List Char) (i : Nat)
    (c : Captures) (h : regexSearchFrom fuel s i = some c) :
    (orOpt c.g1 (orOpt c.g3 (orOpt c.g5 c.g7))).isSome = true ∧
      c.g0.isSome = true ∧ (Mathematics.from_capture s c).isSome = true := by
  obtain ⟨j, e, k, -, -, rfl⟩ := regexSearchFrom_spec h
  cases k <;> exact ⟨rfl, rfl, rfl⟩

theorem from_capture_never_fails_witness :
    regexSearchFrom 4 "$x$".data 0 =
        some ⟨some (0, 3), none, some ['$'], none, none⟩ ∧
      (Mathematics.from_capture "$x$".data
          ⟨some (0, 3), none, some ['$'], none, none⟩).isSome = true :=
  ⟨by decide,
    (from_capture_never_fails 4 "$x$".data 0
      ⟨some (0, 3), none, some ['$'], none, none⟩ (by decide)).2.2⟩

end MathJaxSpec
